import Mathlib

/-!
Verification of the text-grid UI engine in src/index.js.

JS strings are modelled as lists of UTF-16 code units (natural numbers):
the engine's placeholder symbols start at the code unit 0xd800, which is
not a valid Unicode scalar value, so they are not representable as Lean
characters.  All string primitives used by the engine (regex run scans,
first-occurrence replacement, slicing) are modelled explicitly below.
-/

abbrev JSString := List Nat

/-- Code units of an ASCII Lean string, as a JS string value. -/
def str (s : String) : JSString := s.data.map Char.toNat

/-- Initial value of the nextChar counter of makeContext (the JS literal
0xd800): the first placeholder symbol a node hands out. -/
def initialNextChar : Nat := 0xd800

/-- Lengths of the maximal runs of the code unit c in a string, in order
of occurrence, carrying the length of the run in progress; the regex
(c+) with the g flag enumerates exactly these maximal runs. -/
def runsAux (c : Nat) : JSString → Nat → List Nat
  | [], acc => if acc = 0 then [] else [acc]
  | x :: xs, acc =>
    if x = c then runsAux c xs (acc + 1)
    else if acc = 0 then runsAux c xs 0 else acc :: runsAux c xs 0

/-- Lengths of the maximal runs of c in s, in order of occurrence. -/
def runsOf (c : Nat) (s : JSString) : JSString := runsAux c s 0

/-- Error message thrown by extractDimensions, naming the placeholder. -/
def irregularMsg (c : Nat) : String :=
  s!"Irregular shape detected for child with placeholder: \"{c}\""

/-- While loop of extractDimensions over the runs of the placeholder: h
counts the runs, w is undefined (none) until the first run sets it, and
a run whose length differs from w throws the irregular-shape error. -/
def extractDimsLoop (c : Nat) : List Nat → Option Nat → Nat → Except String (Option Nat × Nat)
  | [], w, h => .ok (w, h)
  | l :: rest, none, h => extractDimsLoop c rest (some l) (h + 1)
  | l :: rest, some v, h =>
    if l ≠ v then .error (irregularMsg c)
    else extractDimsLoop c rest (some v) (h + 1)

/-- Model of extractDimensions (src/index.js lines 261-281): scans the
text for maximal runs of the placeholder c, validates that all runs have
one length, and reinterprets a single run longer than the parent width
as a wrapped block of that width.  The JS width field may be undefined
(a child whose placeholder never occurs gets an undefined width), hence
the Option; a comparison with an undefined width is false in JS, and the
wrap case divides by a width that the caller made positive. -/
def extractDimensions (c : Nat) (text : JSString) (width : Option Nat) :
    Except String (Option Nat × Nat) :=
  match extractDimsLoop c (runsOf c text) none 0 with
  | .error e => .error e
  | .ok (w, h) =>
    match width, w with
    | some pw, some wv =>
      if h = 1 ∧ wv > pw then .ok (some pw, wv / pw) else .ok (w, h)
    | _, _ => .ok (w, h)

/-- First match of the regex (c+) in a suffix of the subject, i being the
absolute index of the suffix head: returns the absolute match index and
the match length (the run is maximal to the right). -/
def findRunAux (c : Nat) : JSString → Nat → Option (Nat × Nat)
  | [], _ => none
  | x :: xs, i =>
    if x = c then some (i, 1 + (xs.takeWhile (fun y => y == c)).length)
    else findRunAux c xs (i + 1)

/-- Result of re.exec(s) for the regex (c+) with the g flag when the
regex object's lastIndex is start. -/
def findRunFrom (c : Nat) (s : JSString) (start : Nat) : Option (Nat × Nat) :=
  findRunAux c (s.drop start) start

/-- Replacement of the first occurrence of pat in a string by repl, as
String.prototype.replace does for a string pattern. -/
def replaceFirst (pat repl : JSString) : JSString → JSString
  | [] => if pat = [] then repl else []
  | x :: xs =>
    if pat.isPrefixOf (x :: xs) then repl ++ (x :: xs).drop pat.length
    else x :: replaceFirst pat repl xs

/-- Loop of insertComp: the regex object keeps its lastIndex across
iterations while the parent string is reassigned; each iteration finds
the next run from lastIndex, replaces the first occurrence of that run's
text with the next slice of the child stream, and advances the child.
Every iteration moves lastIndex past at least one character and the
parent never grows, so fuel parent.length + 1 always suffices. -/
def insertCompGo (c : Nat) : Nat → JSString → JSString → Nat → JSString
  | 0, parent, _, _ => parent
  | fuel + 1, parent, child, lastIndex =>
    match findRunFrom c parent lastIndex with
    | none => parent
    | some (i, w) =>
      insertCompGo c fuel (replaceFirst (List.replicate w c) (child.take w) parent)
        (child.drop w) (i + w)

/-- Model of insertComp (src/index.js lines 299-310). -/
def insertComp (c : Nat) (parent child : JSString) : JSString :=
  insertCompGo c (parent.length + 1) parent child 0

/-- Substitution as the spec words it: walk the maximal runs of the
symbol in order of occurrence and replace each with the next run-length
characters sliced off the front of the child text, advancing the
consumption cursor by the run length after each run.  The recursion
consumes at least one parent character per step, so fuel parent.length
suffices. -/
def substituteRunsGo (c : Nat) : Nat → JSString → JSString → JSString
  | 0, parent, _ => parent
  | _ + 1, [], _ => []
  | fuel + 1, x :: xs, child =>
    if x = c then
      let w := 1 + (xs.takeWhile (fun y => y == c)).length
      child.take w ++ substituteRunsGo c fuel (xs.dropWhile (fun y => y == c)) (child.drop w)
    else x :: substituteRunsGo c fuel xs child

/-- Substitution following the spec wording of substitute. -/
def substituteRuns (c : Nat) (parent child : JSString) : JSString :=
  substituteRunsGo c parent.length parent child

/-- Pointwise form of run substitution: every occurrence of the symbol,
scanned left to right, takes the next single character of the child. -/
def substPointwise (c : Nat) : JSString → JSString → JSString
  | [], _ => []
  | x :: xs, child =>
    if x = c then child.take 1 ++ substPointwise c xs (child.drop 1)
    else x :: substPointwise c xs child

/-- Render function of a component, as discoverable by the engine: the
text it returns as a function of the context's width and height, plus
the child render functions it registers, in registration order.  The
k-th registration receives the placeholder symbol 0xd800 + k, so the
text function can mention the symbols deterministically. -/
inductive Prog where
  | node (textFn : Option Nat → Nat → JSString) (children : List Prog)

/-- Component node as built by render: last produced text, the render
function, the insertion-ordered children map keyed by placeholder
symbol, the dirty flag, and the size the parent assigned (the width is
undefined for a child whose placeholder never occurred in the text). -/
inductive Component where
  | mk (text : JSString) (render : Prog) (children : List (Nat × Component))
       (dirty : Bool) (width : Option Nat) (height : Nat)

def Component.text : Component → JSString
  | .mk t _ _ _ _ _ => t

def Component.render : Component → Prog
  | .mk _ r _ _ _ _ => r

def Component.children : Component → List (Nat × Component)
  | .mk _ _ cs _ _ _ => cs

def Component.dirty : Component → Bool
  | .mk _ _ _ d _ _ => d

def Component.width : Component → Option Nat
  | .mk _ _ _ _ w _ => w

def Component.height : Component → Nat
  | .mk _ _ _ _ _ h => h

/-- Symbols under which a node's children are registered, in insertion
order. -/
def childSyms (c : Component) : List Nat := c.children.map (fun x => x.1)

mutual

/-- Fresh-evaluation branch of render (src/index.js lines 169-191): build
the node, produce its text, then measure and fully render every
registered child at the derived size, keyed by its placeholder symbol. -/
def fullEval : Prog → Option Nat → Nat → Except String Component
  | .node textFn childProgs, w, h =>
    match fullEvalChildren (textFn w h) w childProgs initialNextChar with
    | .error e => .error e
    | .ok children => .ok (.mk (textFn w h) (.node textFn childProgs) children false w h)

/-- Loop over the registered child render functions, with sym the symbol
the next registration received (makeContext hands out nextChar++ from
0xd800 in registration order). -/
def fullEvalChildren : JSString → Option Nat → List Prog → Nat → Except String (List (Nat × Component))
  | _, _, [], _ => .ok []
  | text, w, p :: ps, sym =>
    match extractDimensions sym text w with
    | .error e => .error e
    | .ok (cw, ch) =>
      match fullEval p cw ch with
      | .error e => .error e
      | .ok child =>
        match fullEvalChildren text w ps (sym + 1) with
        | .error e => .error e
        | .ok rest => .ok ((sym, child) :: rest)

end

mutual

/-- Cache-present case of render (src/index.js lines 168-209): a dirty
cache is discarded and the options are fully evaluated; a clean cache is
reused, but the walk still recurses into every child at its recorded
size so that deeper dirty flags resolve. -/
def renderCached : Prog → Option Nat → Nat → Component → Except String Component
  | p, w, h, .mk text rf children dirty cw ch =>
    if dirty then fullEval p w h
    else
      match renderChildren children with
      | .error e => .error e
      | .ok children2 => .ok (.mk text rf children2 dirty cw ch)

/-- Clean-branch walk over the cached children: each child is re-rendered
with its own render function and recorded size, itself as cache. -/
def renderChildren : List (Nat × Component) → Except String (List (Nat × Component))
  | [] => .ok []
  | (sym, child) :: rest =>
    match renderCached child.render child.width child.height child with
    | .error e => .error e
    | .ok child2 =>
      match renderChildren rest with
      | .error e => .error e
      | .ok rest2 => .ok ((sym, child2) :: rest2)

end

/-- Model of render (src/index.js lines 168-209): no cache means full
evaluation from the options, otherwise the cached node decides between
re-evaluation (dirty) and reuse with a child walk (clean). -/
def render (p : Prog) (w : Option Nat) (h : Nat) : Option Component → Except String Component
  | none => fullEval p w h
  | some c => renderCached p w h c

mutual

/-- Model of collapseTree (src/index.js lines 286-292): post-order, every
child's collapsed text is substituted into this node's text at its
placeholder runs, in discovery order. -/
def collapseTree : Component → JSString
  | .mk text _ children _ _ _ => collapseChildren text children

/-- Fold of insertComp over the children of a node. -/
def collapseChildren : JSString → List (Nat × Component) → JSString
  | t, [] => t
  | t, (sym, child) :: rest => collapseChildren (insertComp sym t (collapseTree child)) rest

end

/-- Guard and symbol allocation of registerChild (src/index.js lines
125-131): a truthy (non-empty) stored text raises the usage error,
otherwise the current nextChar is handed out and the counter advances. -/
def registerChild (componentText : JSString) (nextChar : Nat) : Except String (Nat × Nat) :=
  if componentText ≠ [] then
    .error "Cannot register new children after the component has been rendered"
  else .ok (nextChar, nextChar + 1)

/-- Tab branch of the keydown listener (src/index.js lines 104-113):
keys is the insertion-ordered list of registered input keys, active the
current active key if any; indexOf yields -1 for a missing or undefined
active key, and index -1 or last wraps to the first key (undefined when
no key is registered). -/
def advanceFocus (keys : List Nat) (active : Option Nat) : Option Nat :=
  let i : Int :=
    match active with
    | none => -1
    | some a => if a ∈ keys then (keys.indexOf a : Int) else -1
  if i = -1 ∨ i = (keys.length : Int) - 1 then keys.head?
  else keys.get? (i + 1).toNat

/-- Keydown handler installed by registerInput (src/index.js lines
143-157) acting on the buffered text: events are ignored while the
registration's key is not the active input; a single-code-unit key is
appended, Backspace removes the last character, and Enter appends a
newline only when multiline was opted into. -/
def inputKeydown (active key : Nat) (multiline : Bool) (buf ekey : JSString) : JSString :=
  if active ≠ key then buf
  else if ekey.length = 1 then buf ++ ekey
  else if ekey = str "Backspace" then buf.dropLast
  else if ekey = str "Enter" ∧ multiline then buf ++ str "\n"
  else buf

/-- Text of a rectangular placeholder region as it sits in the parent's
character stream: one run of w copies of sym per region row, with the
given gap strings (the text between two consecutive region rows, made of
the current row's tail and the next row's head) interleaved.  The region
has gaps.length + 1 rows. -/
def interRuns (sym w : Nat) : List JSString → JSString
  | [] => List.replicate w sym
  | g :: gs => List.replicate w sym ++ g ++ interRuns sym w gs

/-- Stream obtained from interRuns when every run is replaced by the next
w characters sliced off the front of the child's flat stream. -/
def interSubst (flat : JSString) (w : Nat) : List JSString → JSString
  | [] => flat.take w
  | g :: gs => flat.take w ++ g ++ interSubst (flat.drop w) w gs

/-- Render function of a childless node showing the text 90. -/
def tfLeafA : Option Nat → Nat → JSString := fun _ _ => [90]

/-- Render function of a childless node showing the text 91. -/
def tfLeafB : Option Nat → Nat → JSString := fun _ _ => [91]

/-- Render function registering one child and placing its placeholder as
the whole text. -/
def tfMidC7 : Option Nat → Nat → JSString := fun _ _ => [initialNextChar]

/-- Render function registering one child, placing its placeholder at the
head of a four-cell text. -/
def tfRootC7 : Option Nat → Nat → JSString := fun _ _ => [initialNextChar, 65, 66, 67]

/-- Three-node chain: the root registers one child, which itself
registers one child. -/
def progC7 : Prog := .node tfRootC7 [.node tfMidC7 [.node tfLeafA []]]

/-- Render function registering two children, with one placeholder cell
for each. -/
def tfRoot72 : Option Nat → Nat → JSString :=
  fun _ _ => [initialNextChar, 32, initialNextChar + 1]

/-- Node with two registered children. -/
def prog72 : Prog := .node tfRoot72 [.node tfLeafA [], .node tfLeafB []]

/-- Full evaluation of prog72 at width 6, height 1, written out. -/
def comp72 : Component :=
  .mk [initialNextChar, 32, initialNextChar + 1] prog72
    [(initialNextChar, .mk [90] (.node tfLeafA []) [] false (some 1) 1),
     (initialNextChar + 1, .mk [91] (.node tfLeafB []) [] false (some 1) 1)]
    false (some 6) 1

/-- Render function returning an empty text and registering nothing. -/
def rfEmpty : Prog := .node (fun _ _ => []) []

/-- Leaf component whose collapsed stream contains the parent's
placeholder symbol 0xd800 as its first cell. -/
def childBadC1 : Component := .mk [0xd800, 89] rfEmpty [] false none 0

/-- Leaf component whose collapsed stream is the two plain cells 88 and
89. -/
def childGoodC1 : Component := .mk [88, 89] rfEmpty [] false none 0

/-- Substitution leaves a string without the symbol unchanged. -/
theorem substPointwise_not_mem (c : Nat) (child : JSString) :
    ∀ s : JSString, c ∉ s → substPointwise c s child = s := by
  intro s h
  induction s with
  | nil => rfl
  | cons x xs ih =>
    have hx : ¬ x = c := fun e => h (by simp [e])
    have hxs : c ∉ xs := fun m => h (List.mem_cons_of_mem _ m)
    simp [substPointwise, hx, ih hxs]

/-- Substitution distributes over append, the right part consuming the
child stream after as many characters as the left part has symbols. -/
theorem substPointwise_append (c : Nat) :
    ∀ a b child : JSString,
      substPointwise c (a ++ b) child =
        substPointwise c a child ++ substPointwise c b (child.drop (a.count c)) := by
  intro a
  induction a with
  | nil => intro b child; simp [substPointwise]
  | cons x xs ih =>
    intro b child
    by_cases hx : x = c
    · subst hx
      have hbeq : (x == x) = true := beq_self_eq_true x
      simp only [List.cons_append, List.append_eq, substPointwise, eq_self_iff_true,
        if_true, List.count_cons, hbeq, List.append_assoc]
      rw [ih, List.drop_drop, Nat.add_comm 1 (List.count x xs)]
    · have hbeq : (x == c) = false := by simp [hx]
      simp only [List.cons_append, substPointwise, if_neg hx, List.count_cons, hbeq,
        if_false, Nat.add_zero, List.cons_append, List.append_assoc, List.cons_inj_right]
      exact ih b child

/-- Substitution turns a full run of the symbol into the corresponding
prefix of the child stream. -/
theorem substPointwise_replicate (c : Nat) :
    ∀ (w : Nat) (child : JSString),
      substPointwise c (List.replicate w c) child = child.take w := by
  intro w
  induction w with
  | zero => intro child; simp [substPointwise]
  | succ n ih =>
    intro child
    rw [List.replicate_succ]
    simp only [substPointwise, if_pos rfl, ih]
    cases child with
    | nil => simp
    | cons y ys => simp

/-- Sum of the run lengths being accumulated equals the pending run plus
the number of occurrences of the symbol. -/
theorem runsAux_sum (c : Nat) :
    ∀ (s : JSString) (acc : Nat), (runsAux c s acc).sum = acc + s.count c := by
  intro s
  induction s with
  | nil => intro acc; by_cases h : acc = 0 <;> simp [runsAux, h]
  | cons x xs ih =>
    intro acc
    by_cases hx : x = c
    · have : (x == c) = true := by simp [hx]
      simp [runsAux, hx, ih, List.count_cons, this]
      omega
    · have : (x == c) = false := by simp [hx]
      by_cases ha : acc = 0
      · simp [runsAux, hx, ha, ih, List.count_cons, this]
      · simp [runsAux, hx, ha, ih, List.count_cons, this]

/-- Sum of the maximal run lengths equals the number of occurrences of
the symbol. -/
theorem runsOf_sum (c : Nat) (s : JSString) : (runsOf c s).sum = s.count c := by
  simpa using runsAux_sum c s 0

/-- With no occurrence of the symbol left, only the pending run is
emitted. -/
theorem runsAux_not_mem (c : Nat) :
    ∀ (s : JSString) (acc : Nat), c ∉ s →
      runsAux c s acc = if acc = 0 then [] else [acc] := by
  intro s
  induction s with
  | nil => intro acc _; rfl
  | cons x xs ih =>
    intro acc h
    have hx : ¬ x = c := fun e => h (by simp [e])
    have hxs : c ∉ xs := fun m => h (List.mem_cons_of_mem _ m)
    by_cases ha : acc = 0 <;> simp [runsAux, hx, ha, ih _ hxs]

/-- A string without the symbol has no runs of it. -/
theorem runsOf_eq_nil (c : Nat) (s : JSString) (h : c ∉ s) : runsOf c s = [] := by
  simp [runsOf, runsAux_not_mem c s 0 h]

/-- A takeWhile for equality with the symbol yields a run of copies of
the symbol. -/
theorem takeWhile_eq_replicate (c : Nat) (xs : JSString) :
    xs.takeWhile (fun y => y == c) =
      List.replicate (xs.takeWhile (fun y => y == c)).length c := by
  rw [List.eq_replicate_iff]
  exact ⟨rfl, fun b hb => by simpa using List.mem_takeWhile_imp hb⟩

/-- A takeWhile stops immediately on a head that is not the symbol. -/
theorem takeWhile_head_ne (c : Nat) (post : JSString) (h : post.head? ≠ some c) :
    post.takeWhile (fun y => y == c) = [] := by
  cases post with
  | nil => rfl
  | cons y ys =>
    have hy : ¬ y = c := fun e => h (by simp [e])
    simp [List.takeWhile_cons, hy]

/-- A takeWhile passes over a block that satisfies the predicate. -/
theorem takeWhile_all_append (p : Nat → Bool) :
    ∀ A B : JSString, (∀ a ∈ A, p a = true) → (A ++ B).takeWhile p = A ++ B.takeWhile p := by
  intro A
  induction A with
  | nil => intro B _; rfl
  | cons a A2 ih =>
    intro B h
    have ha : p a = true := h a (by simp)
    simp [List.takeWhile_cons, ha, ih B (fun x hx => h x (List.mem_cons_of_mem _ hx))]

/-- The head of a dropWhile for equality with the symbol is never the
symbol. -/
theorem dropWhile_head_ne (c : Nat) (l : JSString) :
    (l.dropWhile (fun y => y == c)).head? ≠ some c := by
  intro h
  have h2 := List.head?_dropWhile_not (fun y => y == c) l
  rw [h] at h2
  simp at h2

/-- Run-wise substitution agrees with pointwise substitution when the
fuel covers the parent length. -/
theorem substituteRunsGo_eq (c : Nat) :
    ∀ (fuel : Nat) (parent child : JSString), parent.length ≤ fuel →
      substituteRunsGo c fuel parent child = substPointwise c parent child := by
  intro fuel
  induction fuel with
  | zero =>
    intro parent child h
    have : parent = [] := List.length_eq_zero.mp (Nat.le_zero.mp h)
    subst this
    rfl
  | succ n ih =>
    intro parent child h
    match parent with
    | [] => rfl
    | x :: xs =>
      by_cases hx : x = c
      · subst hx
        have hsplit : xs.takeWhile (fun y => y == x) ++ xs.dropWhile (fun y => y == x) = xs :=
          List.takeWhile_append_dropWhile _ _
        have hlen : (xs.dropWhile (fun y => y == x)).length ≤ n := by
          have h2 : (xs.dropWhile (fun y => y == x)).length ≤ xs.length :=
            List.Sublist.length_le (List.dropWhile_sublist _)
          have h3 : xs.length + 1 ≤ n + 1 := by simpa using h
          omega
        simp only [substituteRunsGo, eq_self_iff_true, if_true]
        rw [ih _ _ hlen]
        have hrhs : substPointwise x (x :: xs) child =
            List.take (1 + (xs.takeWhile (fun y => y == x)).length) child ++
              substPointwise x (xs.dropWhile (fun y => y == x))
                (List.drop (1 + (xs.takeWhile (fun y => y == x)).length) child) := by
          simp only [substPointwise, if_pos rfl]
          conv_lhs => rw [← hsplit]
          rw [substPointwise_append]
          rw [show xs.takeWhile (fun y => y == x) =
              List.replicate (xs.takeWhile (fun y => y == x)).length x from
            takeWhile_eq_replicate x xs]
          rw [substPointwise_replicate, List.count_replicate]
          simp only [beq_self_eq_true, if_true, List.drop_drop, List.length_replicate]
          rw [← List.append_assoc, ← List.take_add]
        rw [hrhs]
      · simp only [substituteRunsGo, if_neg hx, substPointwise]
        rw [ih xs child (by simpa using Nat.le_of_succ_le_succ h)]

/-- The spec-worded substitution equals the pointwise one. -/
theorem substituteRuns_eq_substPointwise (c : Nat) (parent child : JSString) :
    substituteRuns c parent child = substPointwise c parent child :=
  substituteRunsGo_eq c parent.length parent child (Nat.le_refl _)

/-- The regex finds no match past the base index when the symbol is
absent from the suffix. -/
theorem findRunAux_not_mem (c : Nat) :
    ∀ (s : JSString) (i : Nat), c ∉ s → findRunAux c s i = none := by
  intro s
  induction s with
  | nil => intro i _; rfl
  | cons x xs ih =>
    intro i h
    have hx : ¬ x = c := fun e => h (by simp [e])
    simp [findRunAux, hx, ih (i + 1) (fun m => h (List.mem_cons_of_mem _ m))]

/-- The regex finds the first maximal run: a symbol-free prefix is
skipped, and the match length is the full run because the run is
followed by a non-symbol head. -/
theorem findRunAux_structured (c : Nat) :
    ∀ (pre : JSString) (w : Nat) (post : JSString) (i : Nat),
      c ∉ pre → 1 ≤ w → post.head? ≠ some c →
      findRunAux c (pre ++ (List.replicate w c ++ post)) i = some (i + pre.length, w) := by
  intro pre
  induction pre with
  | nil =>
    intro w post i _ hw hpost
    obtain ⟨v, rfl⟩ : ∃ v, w = v + 1 := ⟨w - 1, by omega⟩
    rw [List.nil_append, List.replicate_succ, List.cons_append]
    simp only [findRunAux, eq_self_iff_true, if_true]
    rw [takeWhile_all_append _ _ _ (fun a ha => by
      have := List.eq_of_mem_replicate ha
      simp [this])]
    rw [takeWhile_head_ne c post hpost]
    simp [List.length_replicate]
    omega
  | cons a pre2 ih =>
    intro w post i h hw hpost
    have ha : ¬ a = c := fun e => h (by simp [e])
    rw [List.cons_append]
    simp only [findRunAux, ha, if_false, ite_false]
    rw [ih w post (i + 1) (fun m => h (List.mem_cons_of_mem _ m)) hw hpost]
    congr 1
    simp [List.length_cons]
    omega

/-- First-occurrence replacement of a full run: a symbol-free prefix
cannot contain or start the pattern, so the pattern is found exactly at
the run. -/
theorem replaceFirst_structured (c : Nat) :
    ∀ (A : JSString) (w : Nat) (repl B : JSString), c ∉ A → 1 ≤ w →
      replaceFirst (List.replicate w c) repl (A ++ (List.replicate w c ++ B)) =
        A ++ (repl ++ B) := by
  intro A
  induction A with
  | nil =>
    intro w repl B _ hw
    obtain ⟨v, rfl⟩ : ∃ v, w = v + 1 := ⟨w - 1, by omega⟩
    rw [List.nil_append]
    conv_lhs => rw [List.replicate_succ, List.cons_append]
    rw [replaceFirst]
    rw [← List.cons_append, ← List.replicate_succ]
    have hpref : (List.replicate (v + 1) c).isPrefixOf (List.replicate (v + 1) c ++ B) = true :=
      List.isPrefixOf_iff_prefix.mpr (List.prefix_append _ _)
    rw [if_pos hpref]
    rw [List.length_replicate]
    have hdrop : List.drop (v + 1) (List.replicate (v + 1) c ++ B) = B := by
      have h5 := List.drop_left (List.replicate (v + 1) c) B
      rwa [List.length_replicate] at h5
    rw [hdrop, List.nil_append]
  | cons a A2 ih =>
    intro w repl B h hw
    have ha : ¬ a = c := fun e => h (by simp [e])
    obtain ⟨v, rfl⟩ : ∃ v, w = v + 1 := ⟨w - 1, by omega⟩
    rw [List.cons_append, replaceFirst]
    have hnp : (List.replicate (v + 1) c).isPrefixOf (a :: (A2 ++ (List.replicate (v + 1) c ++ B))) = false := by
      have hca : (c == a) = false := beq_eq_false_iff_ne.mpr (fun e => ha e.symm)
      rw [List.replicate_succ, List.isPrefixOf_cons₂, hca, Bool.false_and]
    rw [hnp, if_neg Bool.false_ne_true]
    rw [ih (v + 1) repl B (fun m => h (List.mem_cons_of_mem _ m)) hw]
    simp

/-- Any string containing the symbol splits as a symbol-free prefix, a
first maximal run, and a tail that does not start with the symbol. -/
theorem exists_run_decomp (c : Nat) :
    ∀ rest : JSString, c ∈ rest →
      ∃ pre w post, rest = pre ++ (List.replicate w c ++ post) ∧
        c ∉ pre ∧ 1 ≤ w ∧ post.head? ≠ some c := by
  intro rest h
  induction rest with
  | nil => cases h
  | cons x xs ih =>
    by_cases hx : x = c
    · subst hx
      refine ⟨[], (xs.takeWhile (fun y => y == x)).length + 1,
        xs.dropWhile (fun y => y == x), ?_, by simp, by omega, dropWhile_head_ne x xs⟩
      rw [List.nil_append, List.replicate_succ, List.cons_append]
      have : List.replicate (xs.takeWhile (fun y => y == x)).length x ++
          xs.dropWhile (fun y => y == x) = xs := by
        rw [← takeWhile_eq_replicate x xs]
        exact List.takeWhile_append_dropWhile _ _
      rw [this]
    · have hxs : c ∈ xs := by
        cases List.mem_cons.mp h with
        | inl e => exact absurd e.symm hx
        | inr m => exact m
      obtain ⟨pre, w, post, hdec, hpre, hw, hpost⟩ := ih hxs
      refine ⟨x :: pre, w, post, by rw [List.cons_append, hdec], ?_, hw, hpost⟩
      intro hm
      cases List.mem_cons.mp hm with
      | inl e => exact hx e.symm
      | inr m => exact hpre m

/-- Invariant of the insertComp loop: with lastIndex at the end of an
already substituted, symbol-free prefix, and a child stream that is
symbol-free and long enough for the runs that remain, the loop performs
exactly the pointwise substitution on the remaining suffix. -/
theorem insertCompGo_spec (c : Nat) :
    ∀ (fuel : Nat) (done rest child : JSString),
      rest.length ≤ fuel → c ∉ done → c ∉ child → rest.count c ≤ child.length →
      insertCompGo c fuel (done ++ rest) child done.length =
        done ++ substPointwise c rest child := by
  intro fuel
  induction fuel with
  | zero =>
    intro done rest child hlen hdone hchild hcount
    have hr : rest = [] := List.length_eq_zero.mp (Nat.le_zero.mp hlen)
    subst hr
    simp [insertCompGo, substPointwise]
  | succ n ih =>
    intro done rest child hlen hdone hchild hcount
    by_cases hmem : c ∈ rest
    · obtain ⟨pre, w, post, hdec, hpre, hw, hpost⟩ := exists_run_decomp c rest hmem
      subst hdec
      have hfind : findRunFrom c (done ++ (pre ++ (List.replicate w c ++ post))) done.length
          = some (done.length + pre.length, w) := by
        rw [findRunFrom, List.drop_left]
        exact findRunAux_structured c pre w post done.length hpre hw hpost
      have hcnt : (pre ++ (List.replicate w c ++ post)).count c = w + post.count c := by
        rw [List.count_append, List.count_append, List.count_replicate]
        rw [List.count_eq_zero.mpr hpre]
        simp [beq_self_eq_true]
      have hwle : w ≤ child.length := by
        rw [hcnt] at hcount
        omega
      have htake : (child.take w).length = w := List.length_take_of_le hwle
      have hdp : c ∉ done ++ pre := by
        intro hm
        cases List.mem_append.mp hm with
        | inl m => exact hdone m
        | inr m => exact hpre m
      have hrepl : replaceFirst (List.replicate w c) (child.take w)
            (done ++ (pre ++ (List.replicate w c ++ post)))
          = (done ++ pre) ++ (child.take w ++ post) := by
        rw [← List.append_assoc done pre]
        exact replaceFirst_structured c (done ++ pre) w (child.take w) post hdp hw
      have hstep : insertCompGo c (n + 1) (done ++ (pre ++ (List.replicate w c ++ post)))
            child done.length
          = insertCompGo c n ((done ++ pre) ++ (child.take w ++ post)) (child.drop w)
              (done.length + pre.length + w) := by
        simp only [insertCompGo, hfind, hrepl]
      rw [hstep]
      have hplen : post.length ≤ n := by
        simp only [List.length_append, List.length_replicate] at hlen
        omega
      have hdone2 : c ∉ (done ++ pre) ++ child.take w := by
        intro hm
        cases List.mem_append.mp hm with
        | inl m => exact hdp m
        | inr m => exact hchild (List.take_subset _ _ m)
      have hchild2 : c ∉ child.drop w := fun m => hchild (List.drop_subset _ _ m)
      have hcount2 : post.count c ≤ (child.drop w).length := by
        rw [List.length_drop]
        rw [hcnt] at hcount
        omega
      have hidx : done.length + pre.length + w = ((done ++ pre) ++ child.take w).length := by
        rw [List.length_append, List.length_append, htake]
      rw [hidx]
      rw [show (done ++ pre) ++ (child.take w ++ post)
          = ((done ++ pre) ++ child.take w) ++ post from by simp [List.append_assoc]]
      rw [ih ((done ++ pre) ++ child.take w) post (child.drop w) hplen hdone2 hchild2 hcount2]
      rw [substPointwise_append, List.count_eq_zero.mpr hpre, List.drop_zero]
      rw [substPointwise_not_mem c child pre hpre]
      rw [substPointwise_append, substPointwise_replicate, List.count_replicate]
      simp [beq_self_eq_true, List.append_assoc]
    · have hfind : findRunFrom c (done ++ rest) done.length = none := by
        rw [findRunFrom, List.drop_left]
        exact findRunAux_not_mem c rest done.length hmem
      have hstep : insertCompGo c (n + 1) (done ++ rest) child done.length = done ++ rest := by
        simp only [insertCompGo, hfind]
      rw [hstep, substPointwise_not_mem c child rest hmem]

/-- With a symbol-free child stream at least as long as the number of
symbol occurrences, insertComp is the pointwise substitution. -/
theorem insertComp_eq_substPointwise (c : Nat) (parent child : JSString)
    (hchild : c ∉ child) (hcount : parent.count c ≤ child.length) :
    insertComp c parent child = substPointwise c parent child := by
  have h := insertCompGo_spec c (parent.length + 1) [] parent child
    (Nat.le_succ _) (by simp) hchild hcount
  simpa [insertComp] using h

/-- Occurrences of the symbol in a rectangular region's stream: one run
of width w per region row. -/
theorem count_interRuns (c w : Nat) :
    ∀ gaps : List JSString, (∀ g ∈ gaps, c ∉ g) →
      (interRuns c w gaps).count c = (gaps.length + 1) * w := by
  intro gaps
  induction gaps with
  | nil =>
    intro _
    simp [interRuns, List.count_replicate, beq_self_eq_true]
  | cons g gs ih =>
    intro h
    have hg : c ∉ g := h g (by simp)
    have hgs : ∀ x ∈ gs, c ∉ x := fun x hx => h x (List.mem_cons_of_mem _ hx)
    simp only [interRuns, List.count_append, List.count_replicate, beq_self_eq_true,
      if_true, List.count_eq_zero.mpr hg, ih hgs, List.length_cons]
    ring

/-- Pointwise substitution of a rectangular region's stream replaces
each run by the next w characters of the flat stream, leaving the gaps
unchanged. -/
theorem substPointwise_interRuns (c w : Nat) :
    ∀ (gaps : List JSString) (flat : JSString), (∀ g ∈ gaps, c ∉ g) →
      substPointwise c (interRuns c w gaps) flat = interSubst flat w gaps := by
  intro gaps
  induction gaps with
  | nil =>
    intro flat _
    simp [interRuns, interSubst, substPointwise_replicate]
  | cons g gs ih =>
    intro flat h
    have hg : c ∉ g := h g (by simp)
    have hgs : ∀ x ∈ gs, c ∉ x := fun x hx => h x (List.mem_cons_of_mem _ hx)
    simp only [interRuns, List.append_assoc]
    rw [substPointwise_append, substPointwise_replicate, List.count_replicate]
    simp only [beq_self_eq_true, if_true]
    rw [substPointwise_append, substPointwise_not_mem c _ g hg,
      List.count_eq_zero.mpr hg, List.drop_zero, ih _ hgs]
    simp [interSubst, List.append_assoc]

/-- C2 (counterexample): with parent text 0xd800, 97, 0xd800 the run
lengths are 1, 1, and the child stream 0xd800, 89 has the matching
length 2, yet insertComp yields 89, 97, 0xd800 instead of the claimed
run-by-run replacement 0xd800, 97, 89: after the first run is replaced
by the code unit 0xd800, the String.replace of the second run finds the
first occurrence of the symbol inside the freshly substituted child
content and overwrites that instead. -/
theorem C2_counterexample :
    ([0xd800, 89] : JSString).length = (runsOf 0xd800 [0xd800, 97, 0xd800]).sum ∧
    insertComp 0xd800 [0xd800, 97, 0xd800] [0xd800, 89] = [89, 97, 0xd800] ∧
    substituteRuns 0xd800 [0xd800, 97, 0xd800] [0xd800, 89] = [0xd800, 97, 89] ∧
    insertComp 0xd800 [0xd800, 97, 0xd800] [0xd800, 89] ≠
      substituteRuns 0xd800 [0xd800, 97, 0xd800] [0xd800, 89] := by
  decide

/-- C2 (amended): for every placeholder symbol, parent text, and child
flat text that does not contain the symbol and whose length equals the
sum of the lengths of the symbol's maximal runs in the parent text,
insertComp replaces each maximal run of the symbol, in order of
occurrence, with the next run-length characters sliced off the front of
the child flat text, advancing the consumption cursor by the run length
after each run (the behaviour substituteRuns spells out). -/
theorem C2_substitute (c : Nat) (parentText childFlatText : JSString)
    (hfree : c ∉ childFlatText)
    (hlen : childFlatText.length = (runsOf c parentText).sum) :
    insertComp c parentText childFlatText = substituteRuns c parentText childFlatText := by
  rw [substituteRuns_eq_substPointwise]
  exact insertComp_eq_substPointwise c _ _ hfree (le_of_eq (by rw [hlen, runsOf_sum]))

/-- C2 (witness): the amended substitution law evaluated on a parent
with two runs of length 2 and the child stream 1, 2, 3, 4. -/
theorem C2_witness :
    (0xd800 : Nat) ∉ ([1, 2, 3, 4] : JSString) ∧
    ([1, 2, 3, 4] : JSString).length =
      (runsOf 0xd800 [0xd800, 0xd800, 97, 0xd800, 0xd800]).sum ∧
    insertComp 0xd800 [0xd800, 0xd800, 97, 0xd800, 0xd800] [1, 2, 3, 4] =
      substituteRuns 0xd800 [0xd800, 0xd800, 97, 0xd800, 0xd800] [1, 2, 3, 4] :=
  ⟨by decide, by decide, C2_substitute 0xd800 _ _ (by decide) (by decide)⟩

/-- C1 (counterexample): a 3 by 2 parent grid 97, S, 98, 99, S, 100
whose placeholder S occupies the rectangular 1 by 2 region at column 1,
with a child collapsing to the flat stream S, 89 of length 1 * 2: every
hypothesis of the claim holds, yet collapsing does not put the child's
cells into the region, because the child stream itself contains the
placeholder symbol and derails the first-occurrence replacement. -/
theorem C1_counterexample :
    (1 : Nat) ≤ 1 ∧
    (0xd800 : Nat) ∉ ([97] : JSString) ∧
    (0xd800 : Nat) ∉ ([100] : JSString) ∧
    (0xd800 : Nat) ∉ ([98, 99] : JSString) ∧
    ([98, 99] : JSString).length = 3 - 1 ∧
    ([97] : JSString).length = 0 * 3 + 1 ∧
    1 + 1 ≤ 3 ∧ 0 + 1 + 1 ≤ 2 ∧
    (([97] ++ (interRuns 0xd800 1 [[98, 99]] ++ [100])) : JSString).length = 3 * 2 ∧
    (collapseTree childBadC1).length = 1 * (1 + 1) ∧
    collapseTree (Component.mk ([97] ++ (interRuns 0xd800 1 [[98, 99]] ++ [100]))
        rfEmpty [(0xd800, childBadC1)] false none 0)
      ≠ [97] ++ (interSubst (collapseTree childBadC1) 1 [[98, 99]] ++ [100]) := by
  decide

/-- C1 (amended): for a component whose text embeds exactly one child's
placeholder as a rectangular w by h region of the parent's gridW by
gridH grid (one run of w symbols per region row, the rows separated by
the gap strings, a symbol-free head T0 and tail T1), and whose child
collapses to a symbol-free flat stream of length w * h, collapsing the
component substitutes the flat stream run by run into the region and
leaves every other cell of the parent text unchanged. -/
theorem C1_round_trip (T0 T1 : JSString) (gaps : List JSString) (sym w : Nat)
    (child : Component) (rf : Prog) (d : Bool) (pw : Option Nat) (ph : Nat)
    (gridW gridH r0 c0 : Nat)
    (hw : 1 ≤ w)
    (hT0 : sym ∉ T0) (hT1 : sym ∉ T1)
    (hgaps : ∀ g ∈ gaps, sym ∉ g)
    (hgaplen : ∀ g ∈ gaps, g.length = gridW - w)
    (hT0len : T0.length = r0 * gridW + c0)
    (hcol : c0 + w ≤ gridW)
    (hrow : r0 + gaps.length + 1 ≤ gridH)
    (htextlen : (T0 ++ (interRuns sym w gaps ++ T1)).length = gridW * gridH)
    (hflatlen : (collapseTree child).length = w * (gaps.length + 1))
    (hflatfree : sym ∉ collapseTree child) :
    collapseTree (.mk (T0 ++ (interRuns sym w gaps ++ T1)) rf [(sym, child)] d pw ph)
      = T0 ++ (interSubst (collapseTree child) w gaps ++ T1) := by
  have hunfold : collapseTree
        (Component.mk (T0 ++ (interRuns sym w gaps ++ T1)) rf [(sym, child)] d pw ph)
      = insertComp sym (T0 ++ (interRuns sym w gaps ++ T1)) (collapseTree child) := rfl
  rw [hunfold]
  have hcnt : (T0 ++ (interRuns sym w gaps ++ T1)).count sym = (gaps.length + 1) * w := by
    rw [List.count_append, List.count_append]
    rw [List.count_eq_zero.mpr hT0, List.count_eq_zero.mpr hT1]
    rw [count_interRuns sym w gaps hgaps]
    omega
  rw [insertComp_eq_substPointwise sym _ _ hflatfree
    (le_of_eq (by rw [hcnt, hflatlen]; exact Nat.mul_comm _ _))]
  rw [substPointwise_append, substPointwise_not_mem sym _ T0 hT0,
    List.count_eq_zero.mpr hT0, List.drop_zero]
  rw [substPointwise_append, substPointwise_interRuns sym w gaps _ hgaps]
  rw [count_interRuns sym w gaps hgaps]
  rw [substPointwise_not_mem sym _ T1 hT1]

/-- C1 (witness): the amended round trip evaluated on the 3 by 2 grid
97, S, 98, 99, S, 100 with the symbol-free child stream 88, 89. -/
theorem C1_witness :
    collapseTree (Component.mk ([97] ++ (interRuns 0xd800 1 [[98, 99]] ++ [100]))
        rfEmpty [(0xd800, childGoodC1)] false none 0)
      = [97, 88, 98, 99, 89, 100] :=
  (C1_round_trip [97] [100] [[98, 99]] 0xd800 1 childGoodC1 rfEmpty false none 0
    3 2 0 1 (by decide) (by decide) (by decide) (by decide) (by decide) (by decide)
    (by decide) (by decide) (by decide) (by decide) (by decide)).trans (by decide)

/-- The measuring loop succeeds when every remaining run length equals
the established width, counting the runs into the height. -/
theorem extractDimsLoop_all_eq (c : Nat) :
    ∀ (rest : List Nat) (v h : Nat), (∀ x ∈ rest, x = v) →
      extractDimsLoop c rest (some v) h = .ok (some v, h + rest.length) := by
  intro rest
  induction rest with
  | nil => intro v h _; simp [extractDimsLoop]
  | cons l ls ih =>
    intro v h hall
    have hl : l = v := hall l (by simp)
    subst hl
    simp only [extractDimsLoop, ne_eq, eq_self_iff_true, not_true, if_false, ite_false]
    rw [ih l (h + 1) (fun x hx => hall x (List.mem_cons_of_mem _ hx))]
    simp [List.length_cons]
    omega

/-- The measuring loop throws the irregular-shape error when some
remaining run length differs from the established width. -/
theorem extractDimsLoop_err (c : Nat) :
    ∀ (rest : List Nat) (v h : Nat), (∃ x ∈ rest, x ≠ v) →
      extractDimsLoop c rest (some v) h = .error (irregularMsg c) := by
  intro rest
  induction rest with
  | nil => intro v h hex; obtain ⟨x, hx, _⟩ := hex; cases hx
  | cons l ls ih =>
    intro v h hex
    by_cases hl : l = v
    · subst hl
      simp only [extractDimsLoop, ne_eq, eq_self_iff_true, not_true, if_false, ite_false]
      obtain ⟨x, hx, hne⟩ := hex
      cases List.mem_cons.mp hx with
      | inl e => exact absurd e hne
      | inr m => exact ih l (h + 1) ⟨x, m, hne⟩
    · simp [extractDimsLoop, hl]

/-- Measuring never raises when all runs share one length. -/
theorem extractDimensions_ok_of_all_eq (c : Nat) (text : JSString) (width : Option Nat)
    (hall : ∀ x ∈ runsOf c text, ∀ y ∈ runsOf c text, x = y) :
    ∀ e, extractDimensions c text width ≠ .error e := by
  intro e
  cases hruns : runsOf c text with
  | nil =>
    simp only [extractDimensions, hruns, extractDimsLoop]
    cases width <;> simp
  | cons a rest =>
    have hrest : ∀ x ∈ rest, x = a := by
      intro x hx
      have hx2 : x ∈ runsOf c text := by rw [hruns]; exact List.mem_cons_of_mem _ hx
      have ha : a ∈ runsOf c text := by rw [hruns]; simp
      exact hall x hx2 a ha
    have hloop : extractDimsLoop c (a :: rest) none 0 = .ok (some a, 1 + rest.length) := by
      simp only [extractDimsLoop]
      rw [extractDimsLoop_all_eq c rest a 1 hrest]
    simp only [extractDimensions, hruns, hloop]
    cases width with
    | none => simp
    | some pw =>
      split <;> split <;> simp

/-- Measuring raises the irregular-shape error naming the placeholder
when two runs differ in length. -/
theorem extractDimensions_err_of_ne (c : Nat) (text : JSString) (width : Option Nat)
    (hne : ¬ ∀ x ∈ runsOf c text, ∀ y ∈ runsOf c text, x = y) :
    extractDimensions c text width = .error (irregularMsg c) := by
  push_neg at hne
  obtain ⟨x, hx, y, hy, hxy⟩ := hne
  cases hruns : runsOf c text with
  | nil => rw [hruns] at hx; cases hx
  | cons a rest =>
    rw [hruns] at hx hy
    have hbad : ∃ z ∈ rest, z ≠ a := by
      by_contra hno
      push_neg at hno
      have hxa : x = a := by
        cases List.mem_cons.mp hx with
        | inl e2 => exact e2
        | inr m => exact hno x m
      have hya : y = a := by
        cases List.mem_cons.mp hy with
        | inl e2 => exact e2
        | inr m => exact hno y m
      exact hxy (hxa.trans hya.symm)
    have hloop : extractDimsLoop c (a :: rest) none 0 = .error (irregularMsg c) := by
      simp only [extractDimsLoop]
      exact extractDimsLoop_err c rest a _ hbad
    simp [extractDimensions, hruns, hloop]

/-- C3: measuring a placeholder raises the irregular-shape error naming
that symbol exactly when the maximal runs of the symbol in the text do
not all have the same length; in particular run lengths 3, 3, 2 raise
the error while run lengths 3, 3, 3 succeed with width 3 and height 3. -/
theorem C3_shape_validation :
    (∀ (c : Nat) (text : JSString) (width : Option Nat),
        extractDimensions c text width = .error (irregularMsg c) ↔
          ¬ ∀ x ∈ runsOf c text, ∀ y ∈ runsOf c text, x = y) ∧
    extractDimensions 0xd800
      [0xd800, 0xd800, 0xd800, 65, 0xd800, 0xd800, 0xd800, 65, 0xd800, 0xd800]
      (some 10) = .error (irregularMsg 0xd800) ∧
    extractDimensions 0xd800
      [0xd800, 0xd800, 0xd800, 65, 0xd800, 0xd800, 0xd800, 65, 0xd800, 0xd800, 0xd800]
      (some 10) = .ok (some 3, 3) := by
  refine ⟨fun c text width => ⟨fun herr hall => ?_,
    fun hne => extractDimensions_err_of_ne c text width hne⟩, rfl, rfl⟩
  exact extractDimensions_ok_of_all_eq c text width hall _ herr

/-- C4: a single maximal run longer than the parent width is
reinterpreted as a wrapped block: width becomes the parent width and
height the run length divided by it. -/
theorem C4_single_run_wrap (c : Nat) (text : JSString) (L W : Nat)
    (hruns : runsOf c text = [L]) (hgt : W < L) :
    extractDimensions c text (some W) = .ok (some W, L / W) := by
  have hloop : extractDimsLoop c [L] none 0 = .ok (some L, 1) := by
    simp [extractDimsLoop]
  simp [extractDimensions, hruns, hloop, hgt]

/-- C4 (witness): a single run of length 12 with parent width 4 is
measured as width 4, height 3. -/
theorem C4_witness :
    runsOf 0xd800 (List.replicate 12 0xd800) = [12] ∧ (4 : Nat) < 12 ∧
    extractDimensions 0xd800 (List.replicate 12 0xd800) (some 4) = .ok (some 4, 3) :=
  ⟨by decide, by decide, by
    have h := C4_single_run_wrap 0xd800 (List.replicate 12 0xd800) 12 4 (by decide) (by decide)
    simpa using h⟩

/-- C10: a placeholder with zero maximal runs (the symbol does not occur
in the text) is measured without error as height 0 with an undefined
width, and the render loop then builds that child at the undefined width
and height 0 instead of rejecting it. -/
theorem C10_zero_runs (c : Nat) (text : JSString) (width : Option Nat) (p : Prog)
    (habs : c ∉ text) :
    extractDimensions c text width = .ok (none, 0) ∧
    fullEvalChildren text width [p] c =
      (fullEval p none 0).map (fun child => [(c, child)]) := by
  have hruns : runsOf c text = [] := runsOf_eq_nil c text habs
  have hex : extractDimensions c text width = .ok (none, 0) := by
    simp only [extractDimensions, hruns, extractDimsLoop]
  refine ⟨hex, ?_⟩
  simp only [fullEvalChildren, hex]
  cases hfe : fullEval p none 0 with
  | error e => simp [Except.map]
  | ok child => simp [fullEvalChildren, Except.map]

/-- C10 (witness): measuring the placeholder 0xd800 in the plain text
65, 66, 67 yields no error, height 0 and undefined width, and the child
is still rendered. -/
theorem C10_witness :
    extractDimensions 0xd800 [65, 66, 67] (some 5) = .ok (none, 0) ∧
    fullEvalChildren [65, 66, 67] (some 5) [rfEmpty] 0xd800 =
      (fullEval rfEmpty none 0).map (fun child => [(0xd800, child)]) :=
  C10_zero_runs 0xd800 [65, 66, 67] (some 5) rfEmpty (by decide)

/-- C5: in a render pass over a cached two-level tree whose parent is
clean and whose only child, the leaf, is dirty, the reconciler returns
the parent node unchanged in every field, its text included, except
that the leaf is replaced by a fresh full evaluation of the leaf's
render function at the leaf's recorded width and height. -/
theorem C5_dirty_locality (ptext : JSString) (prf : Prog) (sym : Nat)
    (ltext : JSString) (ltf : Option Nat → Nat → JSString) (lw : Option Nat) (lh : Nat)
    (p : Prog) (w : Option Nat) (h : Nat) (pw : Option Nat) (ph : Nat) :
    render p w h
        (some (.mk ptext prf [(sym, .mk ltext (.node ltf []) [] true lw lh)] false pw ph))
      = .ok (.mk ptext prf [(sym, .mk (ltf lw lh) (.node ltf []) [] false lw lh)] false pw ph) :=
  rfl

/-- C6 (counterexample): a node whose render function produced the empty
text does not trigger the late-registration guard, because the guard
tests the truthiness of the stored text rather than a phase flag; the
call still succeeds and hands out a fresh symbol. -/
theorem C6_counterexample :
    registerChild [] initialNextChar = .ok (initialNextChar, initialNextChar + 1) := rfl

/-- C6 (amended): registerChild raises the fatal usage error exactly
when the node's stored text is non-empty; since the text is empty for
the whole synchronous evaluation of the render function, such calls
succeed and return the fresh symbol nextChar, and a call made after the
render function produced an empty text also succeeds. -/
theorem C6_register_guard (text : JSString) (nextChar : Nat) :
    (text ≠ [] →
      registerChild text nextChar =
        .error "Cannot register new children after the component has been rendered") ∧
    (text = [] → registerChild text nextChar = .ok (nextChar, nextChar + 1)) := by
  constructor
  · intro h
    simp [registerChild, h]
  · intro h
    subst h
    rfl

/-- C6 (witness): the guard fires on the one-cell text 120 and passes on
the empty text. -/
theorem C6_witness :
    registerChild [120] 5 =
      .error "Cannot register new children after the component has been rendered" ∧
    registerChild [] 5 = .ok (5, 6) :=
  ⟨(C6_register_guard [120] 5).1 (by decide), (C6_register_guard [] 5).2 rfl⟩

/-- Symbols handed to the registered children during one node's
evaluation are consecutive from the starting counter value, in
registration order. -/
theorem fullEvalChildren_syms :
    ∀ (ps : List Prog) (text : JSString) (w : Option Nat) (sym0 : Nat)
      (cs : List (Nat × Component)),
      fullEvalChildren text w ps sym0 = .ok cs →
      cs.map (fun x => x.1) = (List.range ps.length).map (fun i => sym0 + i) := by
  intro ps
  induction ps with
  | nil =>
    intro text w sym0 cs h
    simp only [fullEvalChildren] at h
    have hcs := Except.ok.inj h
    subst hcs
    rfl
  | cons p ps2 ih =>
    intro text w sym0 cs h
    cases hed : extractDimensions sym0 text w with
    | error e =>
      simp only [fullEvalChildren, hed] at h
      exact Except.noConfusion h
    | ok pr =>
      obtain ⟨cw, ch⟩ := pr
      cases hfe : fullEval p cw ch with
      | error e =>
        simp only [fullEvalChildren, hed, hfe] at h
        exact Except.noConfusion h
      | ok child =>
        cases hrest : fullEvalChildren text w ps2 (sym0 + 1) with
        | error e =>
          simp only [fullEvalChildren, hed, hfe, hrest] at h
          exact Except.noConfusion h
        | ok rest =>
          simp only [fullEvalChildren, hed, hfe, hrest] at h
          have hcs := Except.ok.inj h
          subst hcs
          rw [List.length_cons, List.range_succ_eq_map, List.map_cons, List.map_cons,
            List.map_map, ih text w (sym0 + 1) rest hrest]
          congr 1
          apply List.map_congr_left
          intro a _
          simp only [Function.comp_apply]
          omega

/-- C7 (amended): every successful full evaluation of a node keys its
children, in registration order, by the consecutive symbols 0xd800,
0xd800 + 1, and so on from the reserved surrogate base: monotonically
assigned and pairwise distinct within that node.  The counter restarts
at 0xd800 for every node, so the same values recur across nodes (see
the counterexample); a symbol is only meaningful as a key into its own
node's children. -/
theorem C7_allocation (p : Prog) (w : Option Nat) (h : Nat) (c : Component)
    (heval : fullEval p w h = .ok c) :
    childSyms c = (List.range c.children.length).map (fun i => initialNextChar + i) ∧
    (childSyms c).Nodup ∧
    ∀ s ∈ childSyms c, initialNextChar ≤ s ∧ s < initialNextChar + c.children.length := by
  cases p with
  | node tf cps =>
    simp only [fullEval] at heval
    cases hch : fullEvalChildren (tf w h) w cps initialNextChar with
    | error e => rw [hch] at heval; simp at heval
    | ok children =>
      rw [hch] at heval
      have hc := Except.ok.inj heval
      subst hc
      have hsyms := fullEvalChildren_syms cps (tf w h) w initialNextChar children hch
      have hlen : children.length = cps.length := by
        have h2 := congrArg List.length hsyms
        simpa using h2
      have hsyms2 : childSyms (Component.mk (tf w h) (Prog.node tf cps) children false w h)
          = (List.range children.length).map (fun i => initialNextChar + i) := by
        simp only [childSyms, Component.children, hsyms, hlen]
      refine ⟨hsyms2, ?_, ?_⟩
      · rw [hsyms2]
        exact (List.nodup_range _).map (fun a b hab => by omega)
      · intro s hs
        rw [hsyms2] at hs
        simp only [List.mem_map, List.mem_range] at hs
        obtain ⟨i, hi, rfl⟩ := hs
        simp only [Component.children]
        omega

/-- C7 (counterexample): in the evaluated three-node chain, the root's
only child is registered under the symbol 0xd800, and that child's own
only child is registered under 0xd800 as well: the same symbol value is
reused as a registration key in a different node. -/
theorem C7_counterexample :
    (fullEval progC7 (some 4) 1).map childSyms = .ok [initialNextChar] ∧
    (fullEval progC7 (some 4) 1).map
      (fun c => c.children.map (fun x => childSyms x.2)) = .ok [[initialNextChar]] :=
  ⟨rfl, rfl⟩

/-- C7 (witness): the allocation law evaluated on a node with two
registered children. -/
theorem C7_witness :
    childSyms comp72 = (List.range comp72.children.length).map (fun i => initialNextChar + i) ∧
    (childSyms comp72).Nodup :=
  ⟨(C7_allocation prog72 (some 6) 1 comp72 rfl).1,
   (C7_allocation prog72 (some 6) 1 comp72 rfl).2.1⟩

/-- In a duplicate-free list, the index found for an element equals the
position it was read from. -/
theorem indexOf_eq_of_get (l : List Nat) :
    ∀ (i : Nat) (a : Nat), l.Nodup → l.get? i = some a → l.indexOf a = i := by
  induction l with
  | nil => intro i a _ h; simp at h
  | cons x xs ih =>
    intro i a hnd h
    cases i with
    | zero =>
      simp only [List.get?] at h
      have hax := Option.some.inj h
      subst hax
      simp [List.indexOf_cons]
    | succ n =>
      simp only [List.get?] at h
      have hx : a ≠ x := by
        intro e
        subst e
        exact (List.nodup_cons.mp hnd).1 (List.get?_mem h)
      have hbeq : (x == a) = false := beq_eq_false_iff_ne.mpr (fun e => hx e.symm)
      rw [List.indexOf_cons, hbeq]
      simp [ih n a (List.nodup_cons.mp hnd).2 h]

/-- In a duplicate-free list, the last element's index is the last
position. -/
theorem indexOf_getLast (l : List Nat) (a : Nat) (hnd : l.Nodup)
    (h : l.getLast? = some a) : l.indexOf a = l.length - 1 := by
  obtain ⟨ys, rfl⟩ := List.getLast?_eq_some_iff.mp h
  have hnotmem : a ∉ ys := by
    have hdisj := (List.nodup_append.mp hnd).2.2
    intro hm
    exact hdisj hm (by simp)
  rw [List.indexOf_append_of_not_mem hnotmem]
  simp [List.indexOf_cons, List.length_append]

/-- C8: advancing focus over the insertion-ordered registered keys
activates the first key when none is active or the active key is the
last one, and otherwise activates the key immediately after the active
one; with keys 1, 2, 3 the first advance activates 1, from 1 it goes to
2, and from 3 it wraps to 1. -/
theorem C8_focus_cycle :
    (∀ keys : List Nat, advanceFocus keys none = keys.head?) ∧
    (∀ (keys : List Nat) (a : Nat), keys.Nodup → keys.getLast? = some a →
      advanceFocus keys (some a) = keys.head?) ∧
    (∀ (keys : List Nat) (i a b : Nat), keys.Nodup →
      keys.get? i = some a → keys.get? (i + 1) = some b →
      advanceFocus keys (some a) = some b) ∧
    advanceFocus [1, 2, 3] none = some 1 ∧
    advanceFocus [1, 2, 3] (some 1) = some 2 ∧
    advanceFocus [1, 2, 3] (some 3) = some 1 := by
  refine ⟨?_, ?_, ?_, by decide, by decide, by decide⟩
  · intro keys
    simp [advanceFocus]
  · intro keys a hnd hlast
    have hmem : a ∈ keys := by
      obtain ⟨ys, rfl⟩ := List.getLast?_eq_some_iff.mp hlast
      simp
    have hidx := indexOf_getLast keys a hnd hlast
    have hlen : 1 ≤ keys.length := by
      obtain ⟨ys, rfl⟩ := List.getLast?_eq_some_iff.mp hlast
      simp [List.length_append]
    simp only [advanceFocus, hmem, if_true, hidx]
    rw [if_pos]
    right
    omega
  · intro keys i a b hnd ha hb
    have hmem : a ∈ keys := List.get?_mem ha
    have hidx := indexOf_eq_of_get keys i a hnd ha
    have hbound : i + 1 < keys.length := by
      have h2 := List.get?_eq_some.mp hb
      exact h2.1
    simp only [advanceFocus, hmem, if_true, hidx]
    rw [if_neg]
    · rw [show ((i : Int) + 1).toNat = i + 1 from by omega]
      exact hb
    · intro hor
      cases hor with
      | inl h1 => omega
      | inr h2 => omega

/-- C8 (witness): the cycling law applied to the key lists 1, 2, 3 and
4, 7 at concrete active keys. -/
theorem C8_witness :
    advanceFocus [1, 2, 3] (some 2) = some 3 ∧ advanceFocus [4, 7] (some 7) = some 4 :=
  ⟨(C8_focus_cycle).2.2.1 [1, 2, 3] 1 2 3 (by decide) (by decide) (by decide),
   (C8_focus_cycle).2.1 [4, 7] 7 (by decide) (by decide)⟩

/-- C9: while its key is the active input, the registerInput keydown
handler appends any single-code-unit key to the buffer, removes the
last buffered character on Backspace, appends a newline on Enter only
when multiline was opted into, and ignores events while the key is not
active; feeding h, i, Backspace, and the exclamation mark while active
yields the buffer h followed by the exclamation mark. -/
theorem C9_input_accumulation :
    (∀ (active key : Nat) (multiline : Bool) (buf ekey : JSString),
        active ≠ key → inputKeydown active key multiline buf ekey = buf) ∧
    (∀ (key : Nat) (multiline : Bool) (buf ekey : JSString),
        ekey.length = 1 → inputKeydown key key multiline buf ekey = buf ++ ekey) ∧
    (∀ (key : Nat) (multiline : Bool) (buf : JSString),
        inputKeydown key key multiline buf (str "Backspace") = buf.dropLast) ∧
    (∀ (key : Nat) (buf : JSString),
        inputKeydown key key true buf (str "Enter") = buf ++ str "\n") ∧
    (∀ (key : Nat) (buf : JSString),
        inputKeydown key key false buf (str "Enter") = buf) ∧
    [str "h", str "i", str "Backspace", str "!"].foldl (inputKeydown 1 1 false) []
      = str "h!" := by
  refine ⟨?_, ?_, ?_, ?_, ?_, by decide⟩
  · intro active key multiline buf ekey h
    simp [inputKeydown, h]
  · intro key multiline buf ekey h
    simp [inputKeydown, h]
  · intro key multiline buf
    have h1 : ¬ (str "Backspace").length = 1 := by decide
    simp [inputKeydown, h1]
  · intro key buf
    have h1 : ¬ (str "Enter").length = 1 := by decide
    have h2 : ¬ str "Enter" = str "Backspace" := by decide
    simp [inputKeydown, h1, h2]
  · intro key buf
    have h1 : ¬ (str "Enter").length = 1 := by decide
    have h2 : ¬ str "Enter" = str "Backspace" := by decide
    simp [inputKeydown, h1, h2]

/-- C9 (witness): the handler law applied while inactive, on an append,
and on an erase. -/
theorem C9_witness :
    inputKeydown 2 1 false [104] (str "i") = [104] ∧
    inputKeydown 1 1 false [104] (str "i") = [104] ++ str "i" ∧
    inputKeydown 1 1 false [104, 105] (str "Backspace") = ([104, 105] : JSString).dropLast :=
  ⟨C9_input_accumulation.1 2 1 false [104] (str "i") (by decide),
   C9_input_accumulation.2.1 1 false [104] (str "i") (by decide),
   C9_input_accumulation.2.2.1 1 false [104, 105]⟩
